import Mathlib

/-!
# Verification of the SQLChain miner and crypto helpers

Shallow embedding of `src/miner.py` and `src/crypto.py` (the proof-of-work
search engine and its helpers), with theorems settling the specification
claims about them.

Byte strings are modelled as `List Nat` with each element below 256.
`hashlib.sha256` (used by `crypto.sha256`) is embedded as a full executable
SHA-256 implementation over `Nat`, validated below against the standard
test vectors.
-/

namespace SQLChain

abbrev Bytes := List Nat

/-! ## SHA-256 (embedding of `hashlib.sha256(...).digest()` from `crypto.sha256`) -/

/-- Truncate to a 32-bit word. -/
def w32 (n : Nat) : Nat := n % 4294967296

/-- Right rotation of a 32-bit word by `n` places. -/
def rotr (n x : Nat) : Nat := w32 ((x >>> n) ||| (x <<< (32 - n)))

def shaCh (x y z : Nat) : Nat := (x &&& y) ^^^ ((x ^^^ 4294967295) &&& z)

def shaMaj (x y z : Nat) : Nat := (x &&& y) ^^^ (x &&& z) ^^^ (y &&& z)

def bigSigma0 (x : Nat) : Nat := rotr 2 x ^^^ rotr 13 x ^^^ rotr 22 x

def bigSigma1 (x : Nat) : Nat := rotr 6 x ^^^ rotr 11 x ^^^ rotr 25 x

def smallSigma0 (x : Nat) : Nat := rotr 7 x ^^^ rotr 18 x ^^^ (x >>> 3)

def smallSigma1 (x : Nat) : Nat := rotr 17 x ^^^ rotr 19 x ^^^ (x >>> 10)

/-- The 64 SHA-256 round constants of FIPS 180-4, written in decimal
(1116352408 = 0x428a2f98 and so on). -/
def shaK : List Nat :=
  [1116352408, 1899447441, 3049323471, 3921009573, 961987163,
   1508970993, 2453635748, 2870763221, 3624381080, 310598401,
   607225278, 1426881987, 1925078388, 2162078206, 2614888103,
   3248222580, 3835390401, 4022224774, 264347078, 604807628,
   770255983, 1249150122, 1555081692, 1996064986, 2554220882,
   2821834349, 2952996808, 3210313671, 3336571891, 3584528711,
   113926993, 338241895, 666307205, 773529912, 1294757372,
   1396182291, 1695183700, 1986661051, 2177026350, 2456956037,
   2730485921, 2820302411, 3259730800, 3345764771, 3516065817,
   3600352804, 4094571909, 275423344, 430227734, 506948616,
   659060556, 883997877, 958139571, 1322822218, 1537002063,
   1747873779, 1955562222, 2024104815, 2227730452, 2361852424,
   2428436474, 2756734187, 3204031479, 3329325298]

/-- The SHA-256 initial hash value of FIPS 180-4, in decimal
(1779033703 = 0x6a09e667 and so on). -/
def shaH0 : List Nat :=
  [1779033703, 3144134277, 1013904242, 2773480762,
   1359893119, 2600822924, 528734635, 1541459225]

/-- Group a byte list into big-endian 32-bit words (4 bytes each). -/
def toWordsBE : Bytes → List Nat
  | a :: b :: c :: d :: rest => (((a * 256 + b) * 256 + c) * 256 + d) :: toWordsBE rest
  | _ => []

/-- Big-endian byte encoding of `n` on `k` bytes (Python `int.to_bytes(k, 'big')`;
Python raises `OverflowError` when `n ≥ 256^k`, a case no claim exercises — for
smaller `n` this is exact). -/
def intToBeBytes : Nat → Nat → Bytes
  | 0, _ => []
  | k + 1, n => (n >>> (8 * k)) % 256 :: intToBeBytes k n

/-- SHA-256 message padding: append `0x80`, zero bytes, and the 64-bit
big-endian bit length, reaching a multiple of 64 bytes. -/
def shaPad (msg : Bytes) : Bytes :=
  msg ++ 128 :: List.replicate ((64 + 55 - msg.length % 64) % 64) 0
      ++ intToBeBytes 8 (8 * msg.length)

/-- Extend the 16 block words to the 64-entry message schedule. -/
def shaSchedule (ws : List Nat) : Nat → List Nat
  | 0 => ws
  | n + 1 =>
    let ws' := ws ++ [w32 (smallSigma1 (ws.getD (ws.length - 2) 0)
      + ws.getD (ws.length - 7) 0
      + smallSigma0 (ws.getD (ws.length - 15) 0)
      + ws.getD (ws.length - 16) 0)]
    shaSchedule ws' n

/-- One SHA-256 compression round: `kw` is the round constant plus the
schedule word, the tuple is the working state `(a,b,c,d,e,f,g,h)`. -/
def shaRound (st : Nat × Nat × Nat × Nat × Nat × Nat × Nat × Nat) (kw : Nat) :
    Nat × Nat × Nat × Nat × Nat × Nat × Nat × Nat :=
  match st with
  | (a, b, c, d, e, f, g, h) =>
    let t1 := w32 (h + bigSigma1 e + shaCh e f g + kw)
    let t2 := w32 (bigSigma0 a + shaMaj a b c)
    (w32 (t1 + t2), a, b, c, w32 (d + t1), e, f, g)

/-- Compress a single 64-byte block into the running hash value. -/
def shaCompress (hv : List Nat) (block : Bytes) : List Nat :=
  let ws := shaSchedule (toWordsBE block) 48
  let kws := List.zipWith (fun k w => w32 (k + w)) shaK ws
  let st := kws.foldl shaRound
    (hv.getD 0 0, hv.getD 1 0, hv.getD 2 0, hv.getD 3 0,
     hv.getD 4 0, hv.getD 5 0, hv.getD 6 0, hv.getD 7 0)
  [w32 (hv.getD 0 0 + st.1), w32 (hv.getD 1 0 + st.2.1),
   w32 (hv.getD 2 0 + st.2.2.1), w32 (hv.getD 3 0 + st.2.2.2.1),
   w32 (hv.getD 4 0 + st.2.2.2.2.1), w32 (hv.getD 5 0 + st.2.2.2.2.2.1),
   w32 (hv.getD 6 0 + st.2.2.2.2.2.2.1), w32 (hv.getD 7 0 + st.2.2.2.2.2.2.2)]

/-- Compress the first `n` 64-byte blocks of `padded` in turn (the padded
message has exactly `padded.length / 64` blocks). -/
def shaBlocks : Nat → List Nat → Bytes → List Nat
  | 0, hv, _ => hv
  | n + 1, hv, padded => shaBlocks n (shaCompress hv (padded.take 64)) (padded.drop 64)

/-- `crypto.sha256`: the SHA-256 digest of `data`, as 32 bytes. -/
def sha256 (data : Bytes) : Bytes :=
  let padded := shaPad data
  (shaBlocks (padded.length / 64) shaH0 padded).flatMap (intToBeBytes 4)

/-! ## `miner.count_leading_zero_bits` -/

/-- Inner loop of `count_leading_zero_bits` (source lines 31-34): scan bit
indices `k-1, k-2, …, 0` of `byte`; on the first set bit return the
accumulated count, otherwise add one per clear bit; `none` models the Python
`for` loop falling through without `return`. -/
def clzInner (byte : Nat) : Nat → Nat → Option Nat
  | _, 0 => none
  | acc, k + 1 =>
    if byte &&& (1 <<< k) ≠ 0 then some acc else clzInner byte (acc + 1) k

/-- Outer loop of `count_leading_zero_bits` (source lines 26-35): each zero
byte adds 8; a non-zero byte runs the inner scan (a fall-through without
`return` — impossible for bytes below 256 — continues with the next byte,
as in the Python code). -/
def clzAux : Nat → Bytes → Nat
  | acc, [] => acc
  | acc, b :: rest =>
    if b = 0 then clzAux (acc + 8) rest
    else
      match clzInner b acc 8 with
      | some r => r
      | none => clzAux (acc + 8) rest

/-- `miner.count_leading_zero_bits`: leading zero bits of a byte string. -/
def count_leading_zero_bits (data : Bytes) : Nat := clzAux 0 data

/-- Modelled from the spec's words: the count of leading zero bits within a
single byte (0-7 for a non-zero byte, 8 for a zero byte), read off the
byte's magnitude. -/
def clz8spec (b : Nat) : Nat :=
  if 128 ≤ b then 0 else if 64 ≤ b then 1 else if 32 ≤ b then 2
  else if 16 ≤ b then 3 else if 8 ≤ b then 4 else if 4 ≤ b then 5
  else if 2 ≤ b then 6 else if 1 ≤ b then 7 else 8

/-- Modelled from the spec's words: scan bytes from the most significant;
each all-zero byte adds 8; the first non-zero byte adds its own leading-zero
count and scanning stops. -/
def leading_zero_bits_spec : Bytes → Nat
  | [] => 0
  | b :: rest => if b = 0 then 8 + leading_zero_bits_spec rest else clz8spec b

/-! ## Hex parsing (`crypto.key_from_privhex`, `miner.parse_hex_string`) -/

/-- ASCII fragment of Python `str.lower` (every input any claim exercises is
ASCII). -/
def pyLowerChar (c : Char) : Char :=
  if 'A' ≤ c ∧ c ≤ 'Z' then Char.ofNat (c.toNat + 32) else c

/-- Python `s.lower()` on a character list. -/
def pyLower (s : List Char) : List Char := s.map pyLowerChar

/-- Python `s.replace("0x", "")`: remove every occurrence of `0x`, scanning
left to right without rescanning the produced text. -/
def remove0x : List Char → List Char
  | '0' :: 'x' :: rest => remove0x rest
  | c :: rest => c :: remove0x rest
  | [] => []

/-- Value of one hexadecimal digit. -/
def hexDigitVal (c : Char) : Option Nat :=
  if '0' ≤ c ∧ c ≤ '9' then some (c.toNat - 48)
  else if 'a' ≤ c ∧ c ≤ 'f' then some (c.toNat - 87)
  else if 'A' ≤ c ∧ c ≤ 'F' then some (c.toNat - 55)
  else none

/-- Python `bytes.fromhex`: pairs of hex digits, spaces allowed between
pairs; `none` models the raised `ValueError`. -/
def bytesFromHex : List Char → Option Bytes
  | [] => some []
  | ' ' :: rest => bytesFromHex rest
  | c1 :: c2 :: rest =>
    match hexDigitVal c1, hexDigitVal c2 with
    | some a, some b => (bytesFromHex rest).map (fun t => (16 * a + b) :: t)
    | _, _ => none
  | _ => none

/-- `crypto.key_from_privhex`: `hex_priv.lower().replace("0x", "")` then
`bytes.fromhex`; `none` models the `ValueError` raised on malformed input. -/
def key_from_privhex (s : List Char) : Option Bytes :=
  bytesFromHex (remove0x (pyLower s))

/-- Modelled from the spec's words (for comparison with `key_from_privhex`):
strip ONE optional case-insensitive `0x` prefix, then decode the remainder
strictly as hexadecimal. -/
def key_from_privhex_specModel : List Char → Option Bytes
  | '0' :: 'x' :: rest => bytesFromHex rest
  | '0' :: 'X' :: rest => bytesFromHex rest
  | s => bytesFromHex s

/-- `miner.parse_hex_string`: strip a single `\x` or `0x` prefix (source
lines 44-47), then `bytes.fromhex`. -/
def parse_hex_string : List Char → Option Bytes
  | '\\' :: 'x' :: rest => bytesFromHex rest
  | '0' :: 'x' :: rest => bytesFromHex rest
  | s => bytesFromHex s

/-- Standard test vector: SHA-256 of the empty string. -/
theorem sha256_empty_vector :
    sha256 [] = [0xe3, 0xb0, 0xc4, 0x42, 0x98, 0xfc, 0x1c, 0x14, 0x9a, 0xfb,
      0xf4, 0xc8, 0x99, 0x6f, 0xb9, 0x24, 0x27, 0xae, 0x41, 0xe4, 0x64, 0x9b,
      0x93, 0x4c, 0xa4, 0x95, 0x99, 0x1b, 0x78, 0x52, 0xb8, 0x55] := by decide

/-- Standard test vector: SHA-256 of `"abc"`. -/
theorem sha256_abc_vector :
    sha256 [0x61, 0x62, 0x63] = [0xba, 0x78, 0x16, 0xbf, 0x8f, 0x01, 0xcf,
      0xea, 0x41, 0x41, 0x40, 0xde, 0x5d, 0xae, 0x22, 0x23, 0xb0, 0x03, 0x61,
      0xa3, 0x96, 0x17, 0x7a, 0x9c, 0xb4, 0x10, 0xff, 0x61, 0xf2, 0x00, 0x15,
      0xad] := by decide

/-! ## The mining loop (`miner.mine`, source lines 69-150)

The loop's variables (`nonce`, `best_nonce`, `best_hash`,
`best_leading_zeros`, `iterations` — module globals in the source) form the
state.  Three ghost fields instrument the run for the statements below:
`digests` counts digest evaluations (one per loop-body entry), `log` records
each `(data_to_hash, hash_result)` pair in order, and `bestLog` records
`best_leading_zeros` as it stands after each iteration's update phase.
Wall-clock time (`start_time`, elapsed, hash rate) is not modelled. -/

structure MinerState where
  nonce : Nat
  best_nonce : Nat
  best_hash : Option Bytes
  best_leading_zeros : Nat
  iterations : Nat
  digests : Nat
  log : List (Bytes × Bytes)
  bestLog : List Nat
  deriving DecidableEq

/-- The values a terminal summary prints (source lines 58-61 and 131-134):
best nonce, best hash, best leading-zero count, total iterations.  Elapsed
time and hash rate are wall-clock quantities, not modelled. -/
structure Report where
  nonce : Nat
  hash : Bytes
  leading_zeros : Nat
  iterations : Nat
  deriving DecidableEq

/-- The initial values of the module globals (source lines 15-18) together
with `nonce = 0` (line 83) and empty ghost instrumentation. -/
def initState : MinerState :=
  { nonce := 0, best_nonce := 0, best_hash := none, best_leading_zeros := 0,
    iterations := 0, digests := 0, log := [], bestLog := [] }

/-- Python truthiness of an optional integer argument: `None` and `0` are
both falsy (`if target_zeros and …`, `if max_iterations and …`). -/
def truthy : Option Nat → Bool
  | none => false
  | some n => n != 0

/-- `data_to_hash` for one nonce (source lines 104-110):
`block_hash + ledger_hash + pub` followed by the nonce on 8 bytes
big-endian. -/
def payload (pre : Bytes) (nonce : Nat) : Bytes := pre ++ intToBeBytes 8 nonce

/-- The digest the loop computes at nonce `i` for a given hash function. -/
def digestAt (H : Bytes → Bytes) (pre : Bytes) (i : Nat) : Bytes :=
  H (payload pre i)

/-- Outcome of one pass through the loop body. -/
inductive StepOut where
  | next (s : MinerState)
  | targetReached (s : MinerState) (r : Report)
  | maxIterReached (s : MinerState)
  deriving DecidableEq

/-- Tail of the loop body (source lines 141-147): `iterations += 1`,
`nonce += 1`, then `if max_iterations and iterations >= max_iterations:
break` — a break that prints nothing. -/
def mineContinue (max_iterations : Option Nat) (s : MinerState) : StepOut :=
  let s' := { s with iterations := s.iterations + 1, nonce := s.nonce + 1,
                     bestLog := s.bestLog ++ [s.best_leading_zeros] }
  if truthy max_iterations ∧ max_iterations.getD 0 ≤ s'.iterations then
    .maxIterReached s'
  else .next s'

/-- One pass through the loop body (source lines 106-147): hash the payload,
count leading zeros, replace the best on a strictly greater count, and —
inside that branch — break with a summary when the target is reached; the
summary reads `iterations` before the `iterations += 1` of line 141. -/
def mineStep (H : Bytes → Bytes) (pre : Bytes)
    (target_zeros max_iterations : Option Nat) (s : MinerState) : StepOut :=
  let data_to_hash := payload pre s.nonce
  let hash_result := H data_to_hash
  let leading_zeros := count_leading_zero_bits hash_result
  let s₁ := { s with digests := s.digests + 1,
                     log := s.log ++ [(data_to_hash, hash_result)] }
  if s₁.best_leading_zeros < leading_zeros then
    let s₂ := { s₁ with best_nonce := s₁.nonce, best_hash := some hash_result,
                        best_leading_zeros := leading_zeros }
    if truthy target_zeros ∧ target_zeros.getD 0 ≤ leading_zeros then
      .targetReached { s₂ with bestLog := s₂.bestLog ++ [leading_zeros] }
        { nonce := s₂.best_nonce, hash := hash_result,
          leading_zeros := leading_zeros, iterations := s₂.iterations }
    else mineContinue max_iterations s₂
  else mineContinue max_iterations s₁

/-- Outcome of running the loop for a bounded number of passes. -/
inductive RunOut where
  | running (s : MinerState)
  | targetReached (s : MinerState) (r : Report)
  | maxIterReached (s : MinerState)
  deriving DecidableEq

def RunOut.state : RunOut → MinerState
  | .running s => s
  | .targetReached s _ => s
  | .maxIterReached s => s

/-- The summary a run prints on termination, when any: only the
target-reached break prints one. -/
def RunOut.summary : RunOut → Option Report
  | .targetReached _ r => some r
  | _ => none

/-- Whether the loop has exited (by either break). -/
def RunOut.terminated : RunOut → Bool
  | .running _ => false
  | _ => true

def RunOut.isMaxIter : RunOut → Bool
  | .maxIterReached _ => true
  | _ => false

/-- Run the `while True` loop for at most `fuel` passes (the source loop has
no bound of its own; every claim below concerns a bounded stretch of it). -/
def mineRun (H : Bytes → Bytes) (pre : Bytes)
    (target_zeros max_iterations : Option Nat) : Nat → MinerState → RunOut
  | 0, s => .running s
  | fuel + 1, s =>
    match mineStep H pre target_zeros max_iterations s with
    | .next s' => mineRun H pre target_zeros max_iterations fuel s'
    | .targetReached s' r => .targetReached s' r
    | .maxIterReached s' => .maxIterReached s'

/-- `miner.mine`: the loop run from the initial state with `crypto.sha256`,
on `pre_data = block_hash + ledger_hash + pub` (source line 104). -/
def mine (block_hash ledger_hash pub : Bytes)
    (target_zeros max_iterations : Option Nat) (fuel : Nat) : RunOut :=
  mineRun sha256 (block_hash ++ ledger_hash ++ pub) target_zeros
    max_iterations fuel initState

/-- `miner.signal_handler` (source lines 52-66): prints a summary from the
globals and exits 0 — except that `best_hash.hex()` raises `AttributeError`
when `best_hash` is still `None`; `none` models that crash. -/
def signal_handler (s : MinerState) : Option Report :=
  match s.best_hash with
  | none => none
  | some h => some { nonce := s.best_nonce, hash := h,
                     leading_zeros := s.best_leading_zeros,
                     iterations := s.iterations }

/-- The length validation `miner.main` performs (source lines 201-206): only
the two hashes are checked, each against 32 bytes, exiting with a printed
message and status 1 on violation. -/
def main_length_checks (block_hash ledger_hash : Bytes) : Except String Unit :=
  if block_hash.length ≠ 32 then
    .error "Block hash must be 32 bytes"
  else if ledger_hash.length ≠ 32 then
    .error "Ledger hash must be 32 bytes"
  else .ok ()

/-! ## Lemmas about `count_leading_zero_bits` -/

theorem clzInner_shift (b : Nat) : ∀ (k acc : Nat),
    clzInner b acc k = (clzInner b 0 k).map (acc + ·) := by
  have hstep : ∀ a k, clzInner b a (k + 1) =
      if b &&& (1 <<< k) ≠ 0 then some a else clzInner b (a + 1) k :=
    fun _ _ => rfl
  intro k
  induction k with
  | zero => intro acc; rfl
  | succ k ih =>
    intro acc
    rw [hstep, hstep]
    by_cases hbit : b &&& (1 <<< k) ≠ 0
    · simp [hbit]
    · rw [if_neg hbit, if_neg hbit, ih (acc + 1), ih 1]
      cases h : clzInner b 0 k
      · simp
      · simp
        omega

set_option maxRecDepth 4096 in
theorem clzInner_eval : ∀ b : Nat, b < 256 → b ≠ 0 →
    clzInner b 0 8 = some (clz8spec b) := by decide

theorem clzAux_cons (acc b : Nat) (rest : Bytes) :
    clzAux acc (b :: rest) =
      if b = 0 then clzAux (acc + 8) rest
      else
        match clzInner b acc 8 with
        | some r => r
        | none => clzAux (acc + 8) rest := rfl

theorem leading_zero_bits_spec_cons (b : Nat) (rest : Bytes) :
    leading_zero_bits_spec (b :: rest) =
      if b = 0 then 8 + leading_zero_bits_spec rest else clz8spec b := rfl

theorem clzAux_eq_spec : ∀ (l : Bytes), (∀ x ∈ l, x < 256) →
    ∀ acc : Nat, clzAux acc l = acc + leading_zero_bits_spec l := by
  intro l
  induction l with
  | nil => intro _ acc; rfl
  | cons b rest ih =>
    intro hval acc
    have hb : b < 256 := hval b (by simp)
    have hrest : ∀ x ∈ rest, x < 256 := fun x hx => hval x (by simp [hx])
    rw [clzAux_cons, leading_zero_bits_spec_cons]
    by_cases hb0 : b = 0
    · rw [if_pos hb0, if_pos hb0, ih hrest]
      omega
    · rw [if_neg hb0, if_neg hb0, clzInner_shift, clzInner_eval b hb hb0]
      simp

theorem clzAux_replicate_zero : ∀ (n acc : Nat),
    clzAux acc (List.replicate n 0) = acc + 8 * n := by
  intro n
  induction n with
  | zero => intro acc; rfl
  | succ n ih =>
    intro acc
    rw [List.replicate_succ, clzAux_cons, if_pos rfl, ih]
    omega

/-- C3 (confirmed): `count_leading_zero_bits` counts consecutive zero bits
from the most significant bit — 8 per all-zero byte, the first non-zero
byte's own leading-zero count, stopping there; 256 on 32 zero bytes, 0 when
the first byte is 0xFF, 9 on inputs starting 0x00 0x40, and 8·n on n zero
bytes. -/
theorem claim_C3 :
    (∀ b : Bytes, (∀ x ∈ b, x < 256) →
        count_leading_zero_bits b = leading_zero_bits_spec b)
  ∧ count_leading_zero_bits (List.replicate 32 0) = 256
  ∧ (∀ rest : Bytes, count_leading_zero_bits (255 :: rest) = 0)
  ∧ (∀ rest : Bytes, count_leading_zero_bits (0 :: 64 :: rest) = 9)
  ∧ (∀ n : Nat, count_leading_zero_bits (List.replicate n 0) = 8 * n) := by
  refine ⟨fun b hb => ?_, ?_, fun rest => rfl, fun rest => rfl, fun n => ?_⟩
  · simpa using clzAux_eq_spec b hb 0
  · decide
  · simpa using clzAux_replicate_zero n 0

/-- Witness for C3: the spec equation evaluated at the concrete byte string
0x00 0x40, whose leading-zero-bit count is 9. -/
theorem claim_C3_witness :
    (∀ x ∈ ([0, 64] : Bytes), x < 256) ∧
      count_leading_zero_bits [0, 64] = leading_zero_bits_spec [0, 64] :=
  ⟨by decide, claim_C3.1 [0, 64] (by decide)⟩

/-! ## Lemmas about the big-endian nonce encoding -/

/-- Decode big-endian bytes (inverse of `intToBeBytes` on its domain). -/
def beBytesToNat (l : Bytes) : Nat := l.foldl (fun a b => 256 * a + b) 0

theorem intToBeBytes_length : ∀ k n : Nat, (intToBeBytes k n).length = k := by
  intro k
  induction k with
  | zero => intro n; rfl
  | succ k ih => intro n; simp [intToBeBytes, ih]

theorem intToBeBytes_lt : ∀ k n : Nat, ∀ x ∈ intToBeBytes k n, x < 256 := by
  intro k
  induction k with
  | zero => intro n x hx; simp [intToBeBytes] at hx
  | succ k ih =>
    intro n x hx
    simp only [intToBeBytes, List.mem_cons] at hx
    rcases hx with h | h
    · omega
    · exact ih n x h

theorem intToBeBytes_foldl : ∀ (k n a : Nat),
    List.foldl (fun a b => 256 * a + b) a (intToBeBytes k n) =
      a * 256 ^ k + n % 256 ^ k := by
  intro k
  induction k with
  | zero => intro n a; simp [intToBeBytes, Nat.mod_one]
  | succ k ih =>
    intro n a
    simp only [intToBeBytes, List.foldl_cons, ih]
    have hsh : n >>> (8 * k) = n / 256 ^ k := by
      rw [Nat.shiftRight_eq_div_pow, pow_mul]
      norm_num
    have hmul : n % 256 ^ (k + 1) = n % 256 ^ k + 256 ^ k * (n / 256 ^ k % 256) := by
      rw [pow_succ, Nat.mod_mul]
    rw [hsh, hmul]
    ring

theorem beBytesToNat_intToBeBytes (k n : Nat) (h : n < 256 ^ k) :
    beBytesToNat (intToBeBytes k n) = n := by
  unfold beBytesToNat
  rw [intToBeBytes_foldl]
  simp [Nat.mod_eq_of_lt h]

/-! ## Invariants of the mining loop -/

/-- The ghost log a run from the initial state accumulates after `d` digest
evaluations. -/
def logModel (H : Bytes → Bytes) (pre : Bytes) (d : Nat) : List (Bytes × Bytes) :=
  (List.range d).map (fun i => (payload pre i, digestAt H pre i))

theorem logModel_succ (H : Bytes → Bytes) (pre : Bytes) (d : Nat) :
    logModel H pre (d + 1) =
      logModel H pre d ++ [(payload pre d, digestAt H pre d)] := by
  simp [logModel, List.range_succ]

/-- Facts about the best-result bookkeeping that hold in every state a run
from the initial state can reach, terminal states included. -/
structure BestOk (H : Bytes → Bytes) (pre : Bytes) (s : MinerState) : Prop where
  log_eq : s.log = logModel H pre s.digests
  bestLog_mono : List.Chain' (· ≤ ·) s.bestLog
  all_le : ∀ i < s.digests,
    count_leading_zero_bits (digestAt H pre i) ≤ s.best_leading_zeros
  best_none : s.best_hash = none → s.best_leading_zeros = 0 ∧ s.best_nonce = 0
  best_some : ∀ h, s.best_hash = some h →
    s.best_nonce < s.digests ∧ h = digestAt H pre s.best_nonce ∧
    count_leading_zero_bits h = s.best_leading_zeros ∧
    0 < s.best_leading_zeros ∧
    ∀ j < s.best_nonce,
      count_leading_zero_bits (digestAt H pre j) < s.best_leading_zeros

/-- The full invariant of loop-head states (the target break, which skips
`iterations += 1`, leaves `BestOk` only). -/
structure LoopInv (H : Bytes → Bytes) (pre : Bytes) (s : MinerState)
    extends BestOk H pre s : Prop where
  nonce_eq : s.nonce = s.digests
  iterations_eq : s.iterations = s.digests
  bestLog_last : s.bestLog.getLast? =
    if s.digests = 0 then none else some s.best_leading_zeros

theorem loopInv_init (H : Bytes → Bytes) (pre : Bytes) :
    LoopInv H pre initState := by
  refine ⟨⟨rfl, List.chain'_nil, ?_, ?_, ?_⟩, rfl, rfl, rfl⟩
  · intro i hi
    simp [initState] at hi
  · intro _
    exact ⟨rfl, rfl⟩
  · intro h hh
    simp [initState] at hh

/-- Unfolding equation for `mineContinue` with explicit records. -/
theorem mineContinue_def (mi : Option Nat) (t : MinerState) :
    mineContinue mi t =
      if truthy mi ∧ mi.getD 0 ≤ t.iterations + 1 then
        .maxIterReached
          { nonce := t.nonce + 1, best_nonce := t.best_nonce,
            best_hash := t.best_hash,
            best_leading_zeros := t.best_leading_zeros,
            iterations := t.iterations + 1, digests := t.digests,
            log := t.log, bestLog := t.bestLog ++ [t.best_leading_zeros] }
      else
        .next
          { nonce := t.nonce + 1, best_nonce := t.best_nonce,
            best_hash := t.best_hash,
            best_leading_zeros := t.best_leading_zeros,
            iterations := t.iterations + 1, digests := t.digests,
            log := t.log, bestLog := t.bestLog ++ [t.best_leading_zeros] } := rfl

/-- Unfolding equation for `mineStep` with explicit records. -/
theorem mineStep_def (H : Bytes → Bytes) (pre : Bytes) (tz mi : Option Nat)
    (s : MinerState) :
    mineStep H pre tz mi s =
      if s.best_leading_zeros < count_leading_zero_bits (H (payload pre s.nonce)) then
        if truthy tz ∧ tz.getD 0 ≤ count_leading_zero_bits (H (payload pre s.nonce)) then
          .targetReached
            { nonce := s.nonce, best_nonce := s.nonce,
              best_hash := some (H (payload pre s.nonce)),
              best_leading_zeros := count_leading_zero_bits (H (payload pre s.nonce)),
              iterations := s.iterations, digests := s.digests + 1,
              log := s.log ++ [(payload pre s.nonce, H (payload pre s.nonce))],
              bestLog := s.bestLog ++ [count_leading_zero_bits (H (payload pre s.nonce))] }
            { nonce := s.nonce, hash := H (payload pre s.nonce),
              leading_zeros := count_leading_zero_bits (H (payload pre s.nonce)),
              iterations := s.iterations }
        else
          mineContinue mi
            { nonce := s.nonce, best_nonce := s.nonce,
              best_hash := some (H (payload pre s.nonce)),
              best_leading_zeros := count_leading_zero_bits (H (payload pre s.nonce)),
              iterations := s.iterations, digests := s.digests + 1,
              log := s.log ++ [(payload pre s.nonce, H (payload pre s.nonce))],
              bestLog := s.bestLog }
      else
        mineContinue mi
          { nonce := s.nonce, best_nonce := s.best_nonce,
            best_hash := s.best_hash,
            best_leading_zeros := s.best_leading_zeros,
            iterations := s.iterations, digests := s.digests + 1,
            log := s.log ++ [(payload pre s.nonce, H (payload pre s.nonce))],
            bestLog := s.bestLog } := rfl

/-- `mineContinue` preserves the loop invariant, given the caller's facts
about the post-update state `t`. -/
theorem mineContinue_inv (H : Bytes → Bytes) (pre : Bytes) (mi : Option Nat)
    (t : MinerState)
    (hn : t.nonce + 1 = t.digests)
    (hi : t.iterations + 1 = t.digests)
    (hlog : t.log = logModel H pre t.digests)
    (hmono : List.Chain' (· ≤ ·) (t.bestLog ++ [t.best_leading_zeros]))
    (hall : ∀ i < t.digests,
      count_leading_zero_bits (digestAt H pre i) ≤ t.best_leading_zeros)
    (hbn : t.best_hash = none → t.best_leading_zeros = 0 ∧ t.best_nonce = 0)
    (hbs : ∀ h, t.best_hash = some h →
      t.best_nonce < t.digests ∧ h = digestAt H pre t.best_nonce ∧
      count_leading_zero_bits h = t.best_leading_zeros ∧
      0 < t.best_leading_zeros ∧
      ∀ j < t.best_nonce,
        count_leading_zero_bits (digestAt H pre j) < t.best_leading_zeros) :
    ∃ t', (mineContinue mi t = .next t' ∨ mineContinue mi t = .maxIterReached t') ∧
      LoopInv H pre t' ∧ t'.digests = t.digests ∧
      t'.iterations = t.iterations + 1 ∧
      t'.best_leading_zeros = t.best_leading_zeros := by
  rw [mineContinue_def]
  refine ⟨{ nonce := t.nonce + 1, best_nonce := t.best_nonce,
            best_hash := t.best_hash,
            best_leading_zeros := t.best_leading_zeros,
            iterations := t.iterations + 1, digests := t.digests,
            log := t.log,
            bestLog := t.bestLog ++ [t.best_leading_zeros] }, ?_, ?_, rfl, rfl, rfl⟩
  · by_cases hc : truthy mi ∧ mi.getD 0 ≤ t.iterations + 1
    · exact Or.inr (by rw [if_pos hc])
    · exact Or.inl (by rw [if_neg hc])
  · refine ⟨⟨hlog, hmono, hall, hbn, hbs⟩, hn, hi, ?_⟩
    show (t.bestLog ++ [t.best_leading_zeros]).getLast? =
      if t.digests = 0 then none else some t.best_leading_zeros
    rw [List.getLast?_concat, if_neg (by omega)]

/-- One pass of the loop from an invariant state: either the loop continues
(or breaks on the iteration cap) with the invariant intact and one more
digest evaluation, or it breaks at the target with `BestOk` intact. -/
theorem mineStep_analysis (H : Bytes → Bytes) (pre : Bytes) (tz mi : Option Nat)
    (s : MinerState) (hInv : LoopInv H pre s) :
    (∃ s', (mineStep H pre tz mi s = .next s' ∨
        mineStep H pre tz mi s = .maxIterReached s') ∧
      LoopInv H pre s' ∧ s'.digests = s.digests + 1 ∧
      s'.iterations = s.iterations + 1 ∧
      s.best_leading_zeros ≤ s'.best_leading_zeros) ∨
    (∃ s' r, mineStep H pre tz mi s = .targetReached s' r ∧ BestOk H pre s' ∧
      s'.digests = s.digests + 1) := by
  have hdig : digestAt H pre s.digests = H (payload pre s.nonce) := by
    unfold digestAt
    rw [← hInv.nonce_eq]
  have hlog' : s.log ++ [(payload pre s.nonce, H (payload pre s.nonce))] =
      logModel H pre (s.digests + 1) := by
    rw [logModel_succ, hInv.log_eq, hdig, ← hInv.nonce_eq]
  have hlast := hInv.bestLog_last
  have hmono_ext : ∀ b : Nat, s.best_leading_zeros ≤ b →
      List.Chain' (· ≤ ·) (s.bestLog ++ [b]) := by
    intro b hb
    rw [List.chain'_append]
    refine ⟨hInv.bestLog_mono, List.chain'_singleton b, ?_⟩
    intro x hx y hy
    rw [hlast] at hx
    by_cases h0 : s.digests = 0
    · rw [if_pos h0] at hx
      simp at hx
    · rw [if_neg h0] at hx
      simp at hx hy
      omega
  rw [mineStep_def]
  by_cases hup : s.best_leading_zeros < count_leading_zero_bits (H (payload pre s.nonce))
  · rw [if_pos hup]
    have hall₂ : ∀ i < s.digests + 1, count_leading_zero_bits (digestAt H pre i) ≤
        count_leading_zero_bits (H (payload pre s.nonce)) := by
      intro i hi
      rcases Nat.lt_succ_iff_lt_or_eq.mp hi with h | h
      · exact le_trans (hInv.all_le i h) (le_of_lt hup)
      · rw [h, hdig]
    have hbs₂ : ∀ h, some (H (payload pre s.nonce)) = some h →
        s.nonce < s.digests + 1 ∧ h = digestAt H pre s.nonce ∧
        count_leading_zero_bits h = count_leading_zero_bits (H (payload pre s.nonce)) ∧
        0 < count_leading_zero_bits (H (payload pre s.nonce)) ∧
        ∀ j < s.nonce, count_leading_zero_bits (digestAt H pre j) <
          count_leading_zero_bits (H (payload pre s.nonce)) := by
      intro h hh
      have hh' : h = H (payload pre s.nonce) := by
        injection hh with hh
        exact hh.symm
      subst hh'
      refine ⟨by rw [hInv.nonce_eq]; omega, rfl, rfl, by omega, ?_⟩
      intro j hj
      have hj' : j < s.digests := by
        rw [← hInv.nonce_eq]
        exact hj
      exact lt_of_le_of_lt (hInv.all_le j hj') hup
    by_cases htz : truthy tz ∧ tz.getD 0 ≤ count_leading_zero_bits (H (payload pre s.nonce))
    · rw [if_pos htz]
      refine Or.inr ⟨_, _, rfl, ⟨hlog', hmono_ext _ (le_of_lt hup), hall₂, ?_, hbs₂⟩, rfl⟩
      intro h
      simp at h
    · rw [if_neg htz]
      obtain ⟨t', hor, hinv', hd', hi', hb'⟩ :=
        mineContinue_inv H pre mi
          { nonce := s.nonce, best_nonce := s.nonce,
            best_hash := some (H (payload pre s.nonce)),
            best_leading_zeros := count_leading_zero_bits (H (payload pre s.nonce)),
            iterations := s.iterations, digests := s.digests + 1,
            log := s.log ++ [(payload pre s.nonce, H (payload pre s.nonce))],
            bestLog := s.bestLog }
          (by have := hInv.nonce_eq; show s.nonce + 1 = s.digests + 1; omega)
          (by have := hInv.iterations_eq; show s.iterations + 1 = s.digests + 1; omega)
          hlog' (hmono_ext _ (le_of_lt hup)) hall₂ (by intro h; simp at h) hbs₂
      refine Or.inl ⟨t', hor, hinv', hd'.trans rfl, hi'.trans rfl, ?_⟩
      rw [hb']
      exact le_of_lt hup
  · rw [if_neg hup]
    have hall₁ : ∀ i < s.digests + 1, count_leading_zero_bits (digestAt H pre i) ≤
        s.best_leading_zeros := by
      intro i hi
      rcases Nat.lt_succ_iff_lt_or_eq.mp hi with h | h
      · exact hInv.all_le i h
      · rw [h, hdig]
        omega
    obtain ⟨t', hor, hinv', hd', hi', hb'⟩ :=
      mineContinue_inv H pre mi
        { nonce := s.nonce, best_nonce := s.best_nonce,
          best_hash := s.best_hash,
          best_leading_zeros := s.best_leading_zeros,
          iterations := s.iterations, digests := s.digests + 1,
          log := s.log ++ [(payload pre s.nonce, H (payload pre s.nonce))],
          bestLog := s.bestLog }
        (by have := hInv.nonce_eq; show s.nonce + 1 = s.digests + 1; omega)
        (by have := hInv.iterations_eq; show s.iterations + 1 = s.digests + 1; omega)
        hlog' (hmono_ext _ (le_refl _)) hall₁
        (fun h => hInv.best_none h)
        (by
          intro h hh
          obtain ⟨h1, h2, h3, h4, h5⟩ := hInv.best_some h hh
          exact ⟨by show s.best_nonce < s.digests + 1; omega, h2, h3, h4, h5⟩)
    refine Or.inl ⟨t', hor, hinv', hd'.trans rfl, hi'.trans rfl, ?_⟩
    rw [hb']

/-- Every state a bounded run reaches from an invariant state — through any
of the three outcomes — satisfies `BestOk`. -/
theorem mineRun_bestOk (H : Bytes → Bytes) (pre : Bytes) (tz mi : Option Nat) :
    ∀ (fuel : Nat) (s : MinerState), LoopInv H pre s →
      BestOk H pre (mineRun H pre tz mi fuel s).state := by
  intro fuel
  induction fuel with
  | zero => intro s h; exact h.toBestOk
  | succ fuel ih =>
    intro s h
    rcases mineStep_analysis H pre tz mi s h with
      ⟨s', hstep | hstep, hinv, _, _, _⟩ | ⟨s', r, hstep, hok, _⟩
    · simp only [mineRun, hstep]
      exact ih s' hinv
    · simp only [mineRun, hstep]
      exact hinv.toBestOk
    · simp only [mineRun, hstep]
      exact hok

/-- With no target set, one pass of the loop always ends in `iterations += 1`
and the max-iterations test; Python truthiness of `target_zeros = None`
makes the target break unreachable. -/
theorem mineStep_no_target (H : Bytes → Bytes) (pre : Bytes) (mi : Option Nat)
    (s : MinerState) :
    ∃ s', mineStep H pre none mi s =
        (if truthy mi ∧ mi.getD 0 ≤ s.iterations + 1 then .maxIterReached s'
         else .next s') ∧
      s'.iterations = s.iterations + 1 ∧ s'.digests = s.digests + 1 ∧
      s'.nonce = s.nonce + 1 := by
  rw [mineStep_def]
  by_cases hup : s.best_leading_zeros <
      count_leading_zero_bits (H (payload pre s.nonce))
  · rw [if_pos hup, if_neg (by simp [truthy]), mineContinue_def]
    exact ⟨_, rfl, rfl, rfl, rfl⟩
  · rw [if_neg hup, mineContinue_def]
    exact ⟨_, rfl, rfl, rfl, rfl⟩

/-- With `target_zeros = None` and `max_iterations = N > 0`, a run with
enough fuel exits through the max-iterations break after exactly
`r = N - iterations` further digest evaluations — with no summary, since
that break prints nothing. -/
theorem mineRun_maxIter_exact (H : Bytes → Bytes) (pre : Bytes) (N : Nat) :
    ∀ (r : Nat), 0 < r → ∀ (fuel : Nat) (s : MinerState),
      s.iterations + r = N → r ≤ fuel →
      ∃ s', mineRun H pre none (some N) fuel s = .maxIterReached s' ∧
        s'.iterations = N ∧ s'.digests = s.digests + r := by
  intro r
  induction r with
  | zero => intro h0; exact absurd h0 (lt_irrefl 0)
  | succ r ih =>
    intro _ fuel s hsum hfuel
    obtain ⟨fuel', rfl⟩ : ∃ f, fuel = f + 1 := ⟨fuel - 1, by omega⟩
    obtain ⟨s', hstep, hi, hd, _⟩ := mineStep_no_target H pre (some N) s
    by_cases hr : r = 0
    · subst hr
      have hcond : truthy (some N) ∧ (some N).getD 0 ≤ s.iterations + 1 := by
        refine ⟨by simp [truthy]; omega, by simp; omega⟩
      have hstep' : mineStep H pre none (some N) s = .maxIterReached s' := by
        rw [hstep, if_pos hcond]
      refine ⟨s', by simp only [mineRun, hstep'], by omega, by omega⟩
    · have hcond : ¬(truthy (some N) ∧ (some N).getD 0 ≤ s.iterations + 1) := by
        simp only [truthy, Option.getD_some, not_and]
        intro _
        omega
      have hstep' : mineStep H pre none (some N) s = .next s' := by
        rw [hstep, if_neg hcond]
      obtain ⟨s'', hrun, hi'', hd''⟩ :=
        ih (by omega) fuel' s' (by omega) (by omega)
      refine ⟨s'', ?_, hi'', by omega⟩
      simp only [mineRun, hstep']
      exact hrun

/-- With `max_iterations = 0`, the cap is falsy and the loop never breaks on
it: after any number of passes it is still running, one digest per pass. -/
theorem mineRun_mi_zero (H : Bytes → Bytes) (pre : Bytes) :
    ∀ (fuel : Nat) (s : MinerState),
      ∃ s', mineRun H pre none (some 0) fuel s = .running s' ∧
        s'.digests = s.digests + fuel := by
  intro fuel
  induction fuel with
  | zero => intro s; exact ⟨s, rfl, by omega⟩
  | succ fuel ih =>
    intro s
    obtain ⟨s', hstep, _, hd, _⟩ := mineStep_no_target H pre (some 0) s
    have hcond : ¬(truthy (some 0) ∧ (some 0).getD 0 ≤ s.iterations + 1) := by
      simp [truthy]
    have hstep' : mineStep H pre none (some 0) s = .next s' := by
      rw [hstep, if_neg hcond]
    obtain ⟨s'', hrun, hd''⟩ := ih s'
    refine ⟨s'', ?_, by omega⟩
    simp only [mineRun, hstep']
    exact hrun

/-- With no target, a single pass always performs exactly one digest
evaluation, whatever the header fields are. -/
theorem mineRun_one_digest (H : Bytes → Bytes) (pre : Bytes) (mi : Option Nat)
    (s : MinerState) :
    (mineRun H pre none mi 1 s).state.digests = s.digests + 1 := by
  obtain ⟨s', hstep, _, hd, _⟩ := mineStep_no_target H pre mi s
  by_cases hc : truthy mi ∧ mi.getD 0 ≤ s.iterations + 1
  · have hstep' : mineStep H pre none mi s = .maxIterReached s' := by
      rw [hstep, if_pos hc]
    simp only [mineRun, hstep', RunOut.state]
    omega
  · have hstep' : mineStep H pre none mi s = .next s' := by
      rw [hstep, if_neg hc]
    simp only [mineRun, hstep', RunOut.state]
    omega

/-! ## The digest is always 32 bytes -/

theorem shaBlocks_length : ∀ (n : Nat) (hv : List Nat) (p : Bytes),
    hv.length = 8 → (shaBlocks n hv p).length = 8 := by
  intro n
  induction n with
  | zero => intro hv p h; exact h
  | succ n ih =>
    intro hv p _
    exact ih (shaCompress hv (p.take 64)) (p.drop 64) rfl

theorem flatMap_intToBeBytes4_length : ∀ l : List Nat,
    (l.flatMap (intToBeBytes 4)).length = 4 * l.length := by
  intro l
  induction l with
  | nil => rfl
  | cons x xs ih =>
    simp only [List.flatMap_cons, List.length_append, ih,
      intToBeBytes_length, List.length_cons]
    omega

theorem sha256_length (data : Bytes) : (sha256 data).length = 32 := by
  show ((shaBlocks ((shaPad data).length / 64) shaH0 (shaPad data)).flatMap
    (intToBeBytes 4)).length = 32
  rw [flatMap_intToBeBytes4_length,
    shaBlocks_length ((shaPad data).length / 64) shaH0 (shaPad data) rfl]

/-! ## Concrete fixtures -/

/-- 32 zero bytes (used as block and ledger hash). -/
def zeros32 : Bytes := List.replicate 32 0

/-- 33 zero bytes (used as compressed public key). -/
def zeros33 : Bytes := List.replicate 33 0

/-- A block hash of 32 bytes 0x01: the digest at nonce 0 for the header
`(onesBlock32, zeros32, zeros33)` has no leading zero bit. -/
def onesBlock32 : Bytes := List.replicate 32 1

/-- SHA-256 of 105 zero bytes — the digest the miner computes at nonce 0 for
the all-zero header; its leading-zero-bit count is 1. -/
def digestZH0 : Bytes :=
  [82, 60, 65, 70, 78, 228, 125, 97, 53, 14, 21, 188, 9, 27, 201, 112,
   215, 58, 226, 208, 11, 254, 122, 136, 188, 127, 224, 10, 230, 32, 44, 117]

/-! ## The claims -/

/-- C1 (code_bug): the claim says every terminal transition produces a final
report whose iteration count equals the digest evaluations performed.  The
code violates this twice: the max-iterations break exits the loop printing
nothing at all, and the target-reached summary prints `iterations` before
the `iterations += 1` of the iteration that found the target, so it reports
one less than the digests computed.  Evaluated here on the all-zero header:
a `max_iterations = 1` run terminates with no summary after 1 digest, and a
`target_zeros = 1` run prints a summary claiming 0 iterations after 1
digest evaluation. -/
theorem claim_C1 :
    ((mine zeros32 zeros32 zeros33 none (some 1) 1).terminated = true
      ∧ (mine zeros32 zeros32 zeros33 none (some 1) 1).isMaxIter = true
      ∧ (mine zeros32 zeros32 zeros33 none (some 1) 1).summary = none
      ∧ (mine zeros32 zeros32 zeros33 none (some 1) 1).state.digests = 1)
  ∧ ((mine zeros32 zeros32 zeros33 (some 1) none 2).summary =
        some { nonce := 0, hash := digestZH0, leading_zeros := 1,
               iterations := 0 }
      ∧ (mine zeros32 zeros32 zeros33 (some 1) none 2).state.digests = 1) := by
  set_option maxRecDepth 100000 in decide

/-- C2 (confirmed): every digest evaluation of a run hashes exactly
`block_hash ‖ ledger_hash ‖ pub ‖ nonce` with the nonce on 8 big-endian
bytes, nonces are 0, 1, 2, … in order, the digest is `sha256` of that
payload and is 32 bytes, the 8-byte encoding is exact below 2^64, and for a
well-formed header the payload is 105 bytes. -/
theorem claim_C2 (block_hash ledger_hash pub : Bytes) (tz mi : Option Nat)
    (fuel : Nat) :
    (mine block_hash ledger_hash pub tz mi fuel).state.log =
      (List.range (mine block_hash ledger_hash pub tz mi fuel).state.digests).map
        (fun i => (block_hash ++ ledger_hash ++ pub ++ intToBeBytes 8 i,
          sha256 (block_hash ++ ledger_hash ++ pub ++ intToBeBytes 8 i)))
  ∧ (∀ n : Nat, (intToBeBytes 8 n).length = 8 ∧ ∀ x ∈ intToBeBytes 8 n, x < 256)
  ∧ (∀ n : Nat, n < 2 ^ 64 → beBytesToNat (intToBeBytes 8 n) = n)
  ∧ (∀ data : Bytes, (sha256 data).length = 32)
  ∧ (block_hash.length = 32 → ledger_hash.length = 32 → pub.length = 33 →
      ∀ i : Nat, (block_hash ++ ledger_hash ++ pub ++ intToBeBytes 8 i).length = 105) := by
  refine ⟨?_, fun n => ⟨intToBeBytes_length 8 n, intToBeBytes_lt 8 n⟩,
    fun n hn => ?_, sha256_length, fun hb hl hp i => ?_⟩
  · exact (mineRun_bestOk sha256 (block_hash ++ ledger_hash ++ pub) tz mi fuel
      initState (loopInv_init _ _)).log_eq
  · refine beBytesToNat_intToBeBytes 8 n ?_
    have h : (256 : Nat) ^ 8 = 2 ^ 64 := by norm_num
    omega
  · simp [List.length_append, hb, hl, hp, intToBeBytes_length]

/-- Witness for C2: the 8-byte big-endian encoding decodes back to 5 at
n = 5, and a concrete well-formed header has 105-byte payloads. -/
theorem claim_C2_witness :
    ((5 : Nat) < 2 ^ 64 ∧ beBytesToNat (intToBeBytes 8 5) = 5)
  ∧ (zeros32.length = 32 ∧ zeros32.length = 32 ∧ zeros33.length = 33 ∧
      (zeros32 ++ zeros32 ++ zeros33 ++ intToBeBytes 8 0).length = 105) :=
  ⟨⟨by norm_num,
    (claim_C2 zeros32 zeros32 zeros33 none none 0).2.2.1 5 (by norm_num)⟩,
   ⟨by decide, by decide, by decide,
    (claim_C2 zeros32 zeros32 zeros33 none none 0).2.2.2.2
      (by decide) (by decide) (by decide) 0⟩⟩

/-- C4, counterexample: after a 1-iteration run on the header
`(onesBlock32, zeros32, zeros33)` — whose nonce-0 digest has no leading zero
bit — the recorded best is still the initial `(0, None, 0)`, so the recorded
best digest is NOT the digest of the recorded best nonce, contrary to the
claim's "the recorded best digest always equals the digest of the recorded
best nonce". -/
theorem claim_C4_counterexample :
    (mine onesBlock32 zeros32 zeros33 none (some 1) 1).state.best_nonce = 0
  ∧ (mine onesBlock32 zeros32 zeros33 none (some 1) 1).state.digests = 1
  ∧ (mine onesBlock32 zeros32 zeros33 none (some 1) 1).state.best_hash = none
  ∧ (mine onesBlock32 zeros32 zeros33 none (some 1) 1).state.best_hash ≠
      some (sha256 (onesBlock32 ++ zeros32 ++ zeros33 ++ intToBeBytes 8 0)) := by
  set_option maxRecDepth 100000 in decide

/-- C4 (corrected): across every run the recorded best leading-zero count is
non-decreasing and only strictly greater counts replace the best, so ties
keep the earliest nonce; whenever a best has been recorded at all
(`best_hash = some h`), the recorded digest is the digest of the recorded
nonce, its count is maximal among all digests computed, and the recorded
nonce is the smallest one achieving that count.  But in runs where every
digest has count 0 the best is never replaced, `best_hash` stays `None`, and
the "best digest equals digest of best nonce" part of the claim fails. -/
theorem claim_C4 (block_hash ledger_hash pub : Bytes) (tz mi : Option Nat)
    (fuel : Nat) (s : MinerState)
    (hs : s = (mine block_hash ledger_hash pub tz mi fuel).state) :
    List.Chain' (· ≤ ·) s.bestLog
  ∧ (s.best_hash = none → s.best_leading_zeros = 0 ∧
      ∀ i < s.digests, count_leading_zero_bits
        (sha256 (block_hash ++ ledger_hash ++ pub ++ intToBeBytes 8 i)) = 0)
  ∧ (∀ h, s.best_hash = some h →
      h = sha256 (block_hash ++ ledger_hash ++ pub ++ intToBeBytes 8 s.best_nonce)
      ∧ count_leading_zero_bits h = s.best_leading_zeros
      ∧ s.best_nonce < s.digests
      ∧ (∀ i < s.digests, count_leading_zero_bits
          (sha256 (block_hash ++ ledger_hash ++ pub ++ intToBeBytes 8 i)) ≤
            s.best_leading_zeros)
      ∧ (∀ j < s.best_nonce, count_leading_zero_bits
          (sha256 (block_hash ++ ledger_hash ++ pub ++ intToBeBytes 8 j)) <
            s.best_leading_zeros)
      ∧ (∀ i < s.digests, count_leading_zero_bits
          (sha256 (block_hash ++ ledger_hash ++ pub ++ intToBeBytes 8 i)) =
            s.best_leading_zeros → s.best_nonce ≤ i)) := by
  subst hs
  have hmine : mine block_hash ledger_hash pub tz mi fuel =
      mineRun sha256 (block_hash ++ ledger_hash ++ pub) tz mi fuel initState := rfl
  have hdig : ∀ i : Nat,
      sha256 (block_hash ++ ledger_hash ++ pub ++ intToBeBytes 8 i) =
        digestAt sha256 (block_hash ++ ledger_hash ++ pub) i := fun i => rfl
  rw [hmine]
  simp only [hdig]
  have hok := mineRun_bestOk sha256 (block_hash ++ ledger_hash ++ pub) tz mi
    fuel initState (loopInv_init _ _)
  refine ⟨hok.bestLog_mono, fun hnone => ?_, fun h hsome => ?_⟩
  · obtain ⟨hz, _⟩ := hok.best_none hnone
    refine ⟨hz, fun i hi => ?_⟩
    have := hok.all_le i hi
    rw [hz] at this
    omega
  · obtain ⟨h1, h2, h3, h4, h5⟩ := hok.best_some h hsome
    refine ⟨h2, h3, h1, hok.all_le, h5, fun i hi heq => ?_⟩
    by_contra hlt
    have := h5 i (by omega)
    omega

/-- Witness for C4: a 1-iteration run on the `onesBlock32` header, where the
single digest has count 0: the best is unset and every computed digest
indeed has count 0. -/
theorem claim_C4_witness :
    ((mine onesBlock32 zeros32 zeros33 none (some 1) 1).state.best_hash = none)
  ∧ ((mine onesBlock32 zeros32 zeros33 none (some 1) 1).state.best_leading_zeros = 0 ∧
      ∀ i < (mine onesBlock32 zeros32 zeros33 none (some 1) 1).state.digests,
        count_leading_zero_bits
          (sha256 (onesBlock32 ++ zeros32 ++ zeros33 ++ intToBeBytes 8 i)) = 0) :=
  ⟨by set_option maxRecDepth 100000 in decide,
   (claim_C4 onesBlock32 zeros32 zeros33 none (some 1) 1 _ rfl).2.1
     (by set_option maxRecDepth 100000 in decide)⟩

/-- One pass from a state whose best count is 0 at nonce 0: the best result
after the pass holds the nonce-0 digest exactly when that digest has a
strictly positive leading-zero count; otherwise the best fields are
untouched. -/
theorem mineStep_first (H : Bytes → Bytes) (pre : Bytes) (tz mi : Option Nat)
    (s : MinerState) (hb : s.best_leading_zeros = 0) (hn : s.nonce = 0) :
    (0 < count_leading_zero_bits (H (payload pre 0)) →
      (mineRun H pre tz mi 1 s).state.best_hash = some (H (payload pre 0)) ∧
      (mineRun H pre tz mi 1 s).state.best_nonce = 0 ∧
      (mineRun H pre tz mi 1 s).state.best_leading_zeros =
        count_leading_zero_bits (H (payload pre 0)))
  ∧ (count_leading_zero_bits (H (payload pre 0)) = 0 →
      (mineRun H pre tz mi 1 s).state.best_hash = s.best_hash ∧
      (mineRun H pre tz mi 1 s).state.best_leading_zeros = 0) := by
  have hrun : mineRun H pre tz mi 1 s =
      match mineStep H pre tz mi s with
      | .next s' => .running s'
      | .targetReached s' r => .targetReached s' r
      | .maxIterReached s' => .maxIterReached s' := rfl
  constructor
  · intro hpos
    rw [hrun, mineStep_def, hb, hn, if_pos hpos]
    by_cases htz : truthy tz ∧
        tz.getD 0 ≤ count_leading_zero_bits (H (payload pre 0))
    · rw [if_pos htz]
      exact ⟨rfl, rfl, rfl⟩
    · rw [if_neg htz, mineContinue_def]
      by_cases hmi : truthy mi ∧ mi.getD 0 ≤ s.iterations + 1
      · rw [if_pos hmi]
        exact ⟨rfl, rfl, rfl⟩
      · rw [if_neg hmi]
        exact ⟨rfl, rfl, rfl⟩
  · intro hz
    rw [hrun, mineStep_def, hb, hn, hz, if_neg (by omega), mineContinue_def]
    by_cases hmi : truthy mi ∧ mi.getD 0 ≤ s.iterations + 1
    · rw [if_pos hmi]
      exact ⟨rfl, rfl⟩
    · rw [if_neg hmi]
      exact ⟨rfl, rfl⟩

/-- C5, counterexample: on the header `(onesBlock32, zeros32, zeros33)` the
digest at nonce 0 has no leading zero bit, and after the first iteration the
best result does NOT hold it — `best_hash` is still `None` — contrary to the
claim that the first digest always becomes the initial best. -/
theorem claim_C5_counterexample :
    (mine onesBlock32 zeros32 zeros33 none (some 1) 1).state.digests = 1
  ∧ count_leading_zero_bits
      (sha256 (onesBlock32 ++ zeros32 ++ zeros33 ++ intToBeBytes 8 0)) = 0
  ∧ (mine onesBlock32 zeros32 zeros33 none (some 1) 1).state.best_hash ≠
      some (sha256 (onesBlock32 ++ zeros32 ++ zeros33 ++ intToBeBytes 8 0)) := by
  set_option maxRecDepth 100000 in decide

/-- C5 (corrected): the initial best leading-zero count is 0 (not −∞): the
first digest becomes the initial best exactly when its count is strictly
positive; a first digest with count 0 leaves the best unset (`best_hash`
stays `None`). -/
theorem claim_C5 (H : Bytes → Bytes) (pre : Bytes) (tz mi : Option Nat) :
    initState.best_leading_zeros = 0
  ∧ initState.best_hash = none
  ∧ (0 < count_leading_zero_bits (H (payload pre 0)) →
      (mineRun H pre tz mi 1 initState).state.best_hash = some (H (payload pre 0)) ∧
      (mineRun H pre tz mi 1 initState).state.best_nonce = 0 ∧
      (mineRun H pre tz mi 1 initState).state.best_leading_zeros =
        count_leading_zero_bits (H (payload pre 0)))
  ∧ (count_leading_zero_bits (H (payload pre 0)) = 0 →
      (mineRun H pre tz mi 1 initState).state.best_hash = none) := by
  obtain ⟨hpos, hzero⟩ := mineStep_first H pre tz mi initState rfl rfl
  exact ⟨rfl, rfl, hpos, fun hz => (hzero hz).1⟩

/-- Witness for C5: the all-zero header's first digest has one leading zero
bit, so it becomes the initial best. -/
theorem claim_C5_witness :
    0 < count_leading_zero_bits
        (sha256 (payload (zeros32 ++ zeros32 ++ zeros33) 0))
  ∧ ((mineRun sha256 (zeros32 ++ zeros32 ++ zeros33) none (some 1) 1
        initState).state.best_hash =
      some (sha256 (payload (zeros32 ++ zeros32 ++ zeros33) 0)) ∧
      (mineRun sha256 (zeros32 ++ zeros32 ++ zeros33) none (some 1) 1
        initState).state.best_nonce = 0 ∧
      (mineRun sha256 (zeros32 ++ zeros32 ++ zeros33) none (some 1) 1
        initState).state.best_leading_zeros =
        count_leading_zero_bits
          (sha256 (payload (zeros32 ++ zeros32 ++ zeros33) 0))) :=
  ⟨by set_option maxRecDepth 100000 in decide,
   (claim_C5 sha256 (zeros32 ++ zeros32 ++ zeros33) none (some 1)).2.2.1
     (by set_option maxRecDepth 100000 in decide)⟩

/-- C6, counterexample: with `max_iterations = 0` the claim demands exactly
0 digest evaluations and termination, but Python's `if max_iterations and …`
treats 0 as falsy: after 3 passes the loop is still running and has already
computed 3 digests. -/
theorem claim_C6_counterexample :
    (mine zeros32 zeros32 zeros33 none (some 0) 3).terminated = false
  ∧ (mine zeros32 zeros32 zeros33 none (some 0) 3).state.digests = 3 := by
  set_option maxRecDepth 100000 in decide

/-- C6 (corrected): for every POSITIVE `N` (and no target set), the search
performs exactly `N` digest evaluations, terminates through the
max-iterations break with the iterations counter equal to `N` — printing no
summary there (see C1) — while `N = 0` is falsy and the cap never fires: the
loop is still running after any number of passes, one digest each. -/
theorem claim_C6 (H : Bytes → Bytes) (block_hash ledger_hash pub : Bytes)
    (N fuel : Nat) :
    (0 < N → N ≤ fuel →
      ∃ s', mineRun H (block_hash ++ ledger_hash ++ pub) none (some N) fuel
            initState = .maxIterReached s'
        ∧ s'.iterations = N ∧ s'.digests = N
        ∧ (mineRun H (block_hash ++ ledger_hash ++ pub) none (some N) fuel
            initState).summary = none)
  ∧ (∀ f : Nat,
      ∃ s', mineRun H (block_hash ++ ledger_hash ++ pub) none (some 0) f
            initState = .running s'
        ∧ s'.digests = f) := by
  constructor
  · intro hN hfuel
    obtain ⟨s', hrun, hi, hd⟩ := mineRun_maxIter_exact H
      (block_hash ++ ledger_hash ++ pub) N N hN fuel initState
      (by show 0 + N = N; omega) hfuel
    refine ⟨s', hrun, hi, ?_, ?_⟩
    · exact hd.trans (by show 0 + N = N; omega)
    · rw [hrun]
      rfl
  · intro f
    obtain ⟨s', hrun, hd⟩ := mineRun_mi_zero H
      (block_hash ++ ledger_hash ++ pub) f initState
    exact ⟨s', hrun, hd.trans (by show 0 + f = f; omega)⟩

/-- Witness for C6: a bounded run with `N = 2` and fuel 3 exits through the
max-iterations break with counters at 2 and no summary. -/
theorem claim_C6_witness :
    ((0 : Nat) < 2 ∧ (2 : Nat) ≤ 3)
  ∧ (∃ s', mineRun sha256 (zeros32 ++ zeros32 ++ zeros33) none (some 2) 3
        initState = .maxIterReached s'
      ∧ s'.iterations = 2 ∧ s'.digests = 2
      ∧ (mineRun sha256 (zeros32 ++ zeros32 ++ zeros33) none (some 2) 3
          initState).summary = none) :=
  ⟨⟨by decide, by decide⟩,
   (claim_C6 sha256 zeros32 zeros32 zeros33 2 3).1 (by decide) (by decide)⟩

/-- C7, counterexample: the claim demands `pub` be validated to 33 bytes
with a `HashLengthError` before any iteration, but the code checks only the
two hashes: with an empty `pub` every check the program has passes and the
loop still performs a digest evaluation. -/
theorem claim_C7_counterexample :
    main_length_checks zeros32 zeros32 = .ok ()
  ∧ ([] : Bytes).length ≠ 33
  ∧ (mine zeros32 zeros32 [] none (some 1) 1).state.digests = 1
  ∧ (mine zeros32 zeros32 [] none (some 1) 1).isMaxIter = true :=
  ⟨rfl, by decide,
   by set_option maxRecDepth 100000 in decide,
   by set_option maxRecDepth 100000 in decide⟩

/-- C7 (corrected): before mining, `main` validates only `block_hash` and
`ledger_hash` (exactly 32 bytes each), exiting with a printed message and
status 1 — no `HashLengthError` exception type exists in the code; `pub`'s
length is never validated, and the loop hashes whatever `pub` it is given. -/
theorem claim_C7 :
    (∀ block_hash ledger_hash : Bytes,
      main_length_checks block_hash ledger_hash = .ok () ↔
        block_hash.length = 32 ∧ ledger_hash.length = 32)
  ∧ (∀ (H : Bytes → Bytes) (block_hash ledger_hash pub : Bytes)
        (mi : Option Nat),
      (mineRun H (block_hash ++ ledger_hash ++ pub) none mi 1
        initState).state.digests = 1) := by
  constructor
  · intro b l
    unfold main_length_checks
    by_cases hb : b.length = 32
    · by_cases hl : l.length = 32
      · simp [hb, hl]
      · simp [hb, hl]
    · simp [hb]
  · intro H b l p mi
    exact (mineRun_one_digest H (b ++ l ++ p) mi initState).trans rfl

/-- C8, counterexample: on `"a0xa"` — which has no `0x` prefix and is not
hexadecimal — the spec's parse fails, but the code's
`lower().replace("0x", "")` deletes the interior `0x` and happily returns
`0xaa`. -/
theorem claim_C8_counterexample :
    key_from_privhex_specModel ("a0xa".toList) = none
  ∧ key_from_privhex ("a0xa".toList) = some [170] := by decide

/-- C8 (corrected): private-key parsing lowercases the string (so prefix
handling is case-insensitive) and then removes EVERY occurrence of `0x`, not
just a leading prefix, before strict hex decoding; a string malformed after
that removal fails with the decoder's `ValueError` — the code defines no
`InputError` taxonomy type. -/
theorem claim_C8 :
    (∀ s : List Char, key_from_privhex ('0' :: 'x' :: s) = key_from_privhex s)
  ∧ (∀ s : List Char, key_from_privhex ('0' :: 'X' :: s) = key_from_privhex s)
  ∧ key_from_privhex ("0Xff".toList) = some [255]
  ∧ key_from_privhex ("a0xa".toList) = some [170]
  ∧ key_from_privhex ("0x0x12".toList) = some [18]
  ∧ key_from_privhex ("zz".toList) = none := by
  refine ⟨fun s => ?_, fun s => ?_, by decide, by decide, by decide, by decide⟩
  · have h : pyLower ('0' :: 'x' :: s) = '0' :: 'x' :: pyLower s := by
      show pyLowerChar '0' :: pyLowerChar 'x' :: pyLower s = '0' :: 'x' :: pyLower s
      rw [show pyLowerChar '0' = '0' from by decide,
        show pyLowerChar 'x' = 'x' from by decide]
    show bytesFromHex (remove0x (pyLower ('0' :: 'x' :: s))) =
      bytesFromHex (remove0x (pyLower s))
    rw [h]
    rfl
  · have h : pyLower ('0' :: 'X' :: s) = '0' :: 'x' :: pyLower s := by
      show pyLowerChar '0' :: pyLowerChar 'X' :: pyLower s = '0' :: 'x' :: pyLower s
      rw [show pyLowerChar '0' = '0' from by decide,
        show pyLowerChar 'X' = 'x' from by decide]
    show bytesFromHex (remove0x (pyLower ('0' :: 'X' :: s))) =
      bytesFromHex (remove0x (pyLower s))
    rw [h]
    rfl

/-- C9, counterexample: for the all-zero header at nonce 0 the payload the
loop hashes is not 73 zero bytes. -/
theorem claim_C9_counterexample :
    (mine zeros32 zeros32 zeros33 none (some 1) 1).state.log.map Prod.fst ≠
      [List.replicate 73 0] := by
  set_option maxRecDepth 100000 in decide

/-- C9 (corrected): for the all-zero header at nonce 0 the payload the loop
hashes is 105 zero bytes (32 + 32 + 33 + 8), not 73. -/
theorem claim_C9 :
    payload (zeros32 ++ zeros32 ++ zeros33) 0 = List.replicate 105 0
  ∧ (mine zeros32 zeros32 zeros33 none (some 1) 1).state.log.map Prod.fst =
      [List.replicate 105 0] := by
  set_option maxRecDepth 100000 in decide

/-- C10 (confirmed): in every run whose digests all have leading-zero count
0 — i.e. interrupted before any digest with a strictly positive count was
recorded — the recorded best hash is still `None`, and the interrupt
handler's summary is undefined: formatting `best_hash.hex()` raises instead
of printing the summary and exiting 0. -/
theorem claim_C10 (block_hash ledger_hash pub : Bytes) (tz mi : Option Nat)
    (fuel : Nat)
    (hall : ∀ e ∈ (mine block_hash ledger_hash pub tz mi fuel).state.log,
      count_leading_zero_bits e.2 = 0) :
    (mine block_hash ledger_hash pub tz mi fuel).state.best_hash = none
  ∧ signal_handler (mine block_hash ledger_hash pub tz mi fuel).state = none := by
  have hmine : mine block_hash ledger_hash pub tz mi fuel =
      mineRun sha256 (block_hash ++ ledger_hash ++ pub) tz mi fuel initState := rfl
  rw [hmine] at hall ⊢
  have hok := mineRun_bestOk sha256 (block_hash ++ ledger_hash ++ pub) tz mi
    fuel initState (loopInv_init _ _)
  set st := (mineRun sha256 (block_hash ++ ledger_hash ++ pub) tz mi fuel
    initState).state with hst
  cases hbh : st.best_hash with
  | none =>
    refine ⟨rfl, ?_⟩
    unfold signal_handler
    rw [hbh]
  | some h =>
    exfalso
    obtain ⟨h1, h2, h3, h4, _⟩ := hok.best_some h hbh
    have hmem : (payload (block_hash ++ ledger_hash ++ pub) st.best_nonce,
        digestAt sha256 (block_hash ++ ledger_hash ++ pub) st.best_nonce) ∈
          st.log := by
      rw [hok.log_eq]
      unfold logModel
      exact List.mem_map_of_mem _ (List.mem_range.mpr h1)
    have hz := hall _ hmem
    simp only at hz
    rw [← h2] at hz
    omega

/-- Witness for C10: a 1-iteration run on the `onesBlock32` header computes
only count-0 digests, leaves the best unset, and makes the handler fail. -/
theorem claim_C10_witness :
    (∀ e ∈ (mine onesBlock32 zeros32 zeros33 none (some 1) 1).state.log,
        count_leading_zero_bits e.2 = 0)
  ∧ ((mine onesBlock32 zeros32 zeros33 none (some 1) 1).state.best_hash = none
      ∧ signal_handler
          (mine onesBlock32 zeros32 zeros33 none (some 1) 1).state = none) :=
  ⟨by set_option maxRecDepth 100000 in decide,
   claim_C10 onesBlock32 zeros32 zeros33 none (some 1) 1
     (by set_option maxRecDepth 100000 in decide)⟩

end SQLChain
